import Mathlib

/-!
Verification of the BIP-37 Bloom filter crate (modular implementation in
`src/builder.rs`, `src/filter.rs`, `src/hasher.rs`).

Shallow embedding conventions:
* `u32` values are `Nat`s reduced modulo `2^32` (`U32`); wrapping arithmetic is
  explicit `% U32`.
* The bit array (`bitvec::vec::BitVec<u8>` with positional indexing) is a
  `List Bool`.
* `BloomFilterBuilder::add_element` uses `get_mut(..).expect(..)`, which panics
  when an index is out of bounds; the embedding returns `Option`, with `none`
  modelling the panic.
* The floating-point parameter derivation (`filter_size`, `hash_fns_number`)
  is modelled by exact real arithmetic (`Real.log` for `f64::ln`, `Int.floor`
  with saturation for the `as u64` cast); the integer remainder of
  `new_n_tweak` takes the derived byte size and hash count as arguments.
-/

namespace Bip37

/-- The modulus `2^32` of `u32` arithmetic. -/
def U32 : Nat := 4294967296

/-- Rotation `u32::rotate_left`: rotate a value `x < 2^32` left by `r` bits (`0 < r < 32`). -/
def rotl32 (x r : Nat) : Nat := (x <<< r) % U32 ||| x >>> (32 - r)

/-- The murmur3 32-bit key mix: `k.wrapping_mul(0xcc9e2d51).rotate_left(15).wrapping_mul(0x1b873593)`
(function `calc_k` of the `murmur3` crate, called from `murmur3_32`). -/
def murmurMixK (k : Nat) : Nat :=
  rotl32 (k * 0xcc9e2d51 % U32) 15 * 0x1b873593 % U32

/-- One full 4-byte block step of `murmur3_32`:
`state ^= calc_k(k); state = state.rotate_left(13); state = state.wrapping_mul(5).wrapping_add(0xe6546b64)`. -/
def murmurStep (h k : Nat) : Nat :=
  (rotl32 (h ^^^ murmurMixK k) 13 * 5 + 0xe6546b64) % U32

/-- The read loop of `murmur3::murmur3_32` over the byte stream: full 4-byte
little-endian blocks go through `murmurStep`; a 1-3 byte tail is key-mixed and
xored into the state without the block finishing step; an empty remainder
leaves the state unchanged. -/
def murmurBody (h : Nat) : List Nat → Nat
  | b0 :: b1 :: b2 :: b3 :: rest =>
      murmurBody (murmurStep h (b0 + b1 * 256 + b2 * 65536 + b3 * 16777216)) rest
  | [b0, b1, b2] => h ^^^ murmurMixK (b0 + b1 * 256 + b2 * 65536)
  | [b0, b1] => h ^^^ murmurMixK (b0 + b1 * 256)
  | [b0] => h ^^^ murmurMixK b0
  | [] => h

/-- The murmur3 final avalanche over the 32-bit state. -/
def fmix32 (h : Nat) : Nat :=
  let h1 := (h ^^^ h >>> 16) * 0x85ebca6b % U32
  let h2 := (h1 ^^^ h1 >>> 13) * 0xc2b2ae35 % U32
  h2 ^^^ h2 >>> 16

/-- Hash `murmur3::murmur3_32(&mut Cursor::new(item), seed)`: the whole byte slice is
consumed, the processed length is xored in, then the state is finalized.
(The `Cursor` read never fails, so the `expect("no IO happens")` in
`Hasher::hash_indexes` always succeeds and no `Option` is needed here.) -/
def murmur3_32 (item : List Nat) (seed : Nat) : Nat :=
  fmix32 (murmurBody (seed % U32) item ^^^ item.length % U32)

/-- Structure `Hasher` of `src/hasher.rs`: the recorded bit-array length and the seed list. -/
structure Hasher where
  filter_bits_len : Nat
  hash_seeds : List Nat
deriving DecidableEq, Repr

/-- Method `Hasher::hash_indexes`: one murmur3 hash per seed, in seed order, reduced
modulo the recorded bit-array length.  (In Rust `% 0` would panic; in every
reachable state a nonempty seed list comes with a positive length, and with an
empty seed list the lazy iterator never evaluates the closure, as the empty
`List.map` here likewise produces nothing.) -/
def Hasher.hash_indexes (h : Hasher) (item : List Nat) : List Nat :=
  h.hash_seeds.map fun seed => murmur3_32 item seed % h.filter_bits_len

/-- Structure `BloomFilterBuilder` of `src/builder.rs`. -/
structure BloomFilterBuilder where
  n_tweak : Nat
  filter_bits : List Bool
  hasher : Hasher
deriving DecidableEq, Repr

/-- Structure `BloomFilter` of `src/filter.rs`. -/
structure BloomFilter where
  filter_bits : List Bool
  n_tweak : Nat
  n_flags : Nat
  hasher : Hasher
deriving DecidableEq, Repr

/-- The `as u64` cast of an `f64`, on the real-valued idealization: truncation
toward zero saturated into `[0, 2^64 - 1]` (negative values, including the
result of a negative intermediate, become `0`). -/
noncomputable def rustCastU64 (x : ℝ) : Nat := (min (max ⌊x⌋ 0) (2 ^ 64 - 1)).toNat

/-- Function `BloomFilterBuilder::filter_size` (src/builder.rs lines 57-70), with the
`f64` arithmetic modelled by exact real arithmetic: the optimal-size formula
`-1.0 / ln(2)^2 * n_elements * fp_rate.ln()` is cast `as u64` (truncating,
saturating), integer-divided by 8, and accepted only below 36000.
`u64 -> usize` conversion (`try_into`) always succeeds on a 64-bit target. -/
noncomputable def BloomFilterBuilder.filter_size (n_elements : Nat)
    (false_positives_rate : ℝ) : Option Nat :=
  let s := rustCastU64 (-1 / Real.log 2 ^ 2 * n_elements * Real.log false_positives_rate) / 8
  if s < 36000 then some s else none

/-- The formula of the spec itself for the byte length: `ceil(-1/ln(2)^2 * n_elements *
ln(fp_rate) / 8)`, rounding upward to the next whole byte (to be compared with
the code function `BloomFilterBuilder.filter_size`). -/
noncomputable def filterSizeSpecCeil (n_elements : Nat) (p : ℝ) : Nat :=
  ⌈-1 / Real.log 2 ^ 2 * n_elements * Real.log p / 8⌉₊

/-- Function `BloomFilterBuilder::hash_fns_number` (src/builder.rs lines 72-74), with
the `f64` arithmetic modelled by exact real arithmetic:
`((filter_size * 8) as f64 / n_elements as f64 * ln(2)) as u32`, the cast
truncating and saturating into `[0, 2^32 - 1]` (`Nat.floor` already sends
nonpositive reals to 0, matching the cast of a negative or NaN `f64`). -/
noncomputable def BloomFilterBuilder.hash_fns_number (n_elements : Nat)
    (filter_size : Nat) : Nat :=
  min ⌊(filter_size * 8 : ℝ) / n_elements * Real.log 2⌋₊ (U32 - 1)

/-- The integer remainder of `BloomFilterBuilder::new_n_tweak`
(src/builder.rs lines 36-55) after `filter_size` and `hash_fns_number` have
produced `filter_size_bytes` and `n_hashes`: derive the seed list
(`i.overflowing_mul(0xFBA4C795).0 + n_tweak`, both operations wrapping on 32
bits in release semantics), allocate `filter_size_bytes * 8` zeroed bits, and
record the bit-array length `data.len()` in the hasher. -/
def BloomFilterBuilder.new_n_tweak (filter_size_bytes n_hashes n_tweak : Nat) :
    BloomFilterBuilder :=
  let hash_seeds := (List.range n_hashes).map fun i => (i * 0xFBA4C795 % U32 + n_tweak) % U32
  let data := List.replicate (filter_size_bytes * 8) false
  { n_tweak := n_tweak
    filter_bits := data
    hasher := { filter_bits_len := data.length, hash_seeds := hash_seeds } }

/-- One bit-set of `add_element`: `*self.filter_bits.get_mut(hash).expect(..) = true`.
`none` models the panic of the `expect` when the index is out of bounds. -/
def setBitChecked (bits : List Bool) (i : Nat) : Option (List Bool) :=
  if i < bits.length then some (bits.set i true) else none

/-- Method `BloomFilterBuilder::add_element` (src/builder.rs lines 77-87): set the bit
at every index of `hash_indexes element` to true; `none` models the panic of
the `expect("hash result is normalized")`. -/
def BloomFilterBuilder.add_element (b : BloomFilterBuilder) (element : List Nat) :
    Option BloomFilterBuilder :=
  ((b.hasher.hash_indexes element).foldlM setBitChecked b.filter_bits).map fun bits =>
    { b with filter_bits := bits }

/-- A chain of `add_element` calls (the fluent consuming-and-returning style),
one per element of `elems`, left to right. -/
def BloomFilterBuilder.addAll (b : BloomFilterBuilder) (elems : List (List Nat)) :
    Option BloomFilterBuilder :=
  elems.foldlM BloomFilterBuilder.add_element b

/-- Method `BloomFilterBuilder::build`: transfer the bit array, tweak and hasher,
with `n_flags = 0`. -/
def BloomFilterBuilder.build (b : BloomFilterBuilder) : BloomFilter :=
  { filter_bits := b.filter_bits, n_tweak := b.n_tweak, n_flags := 0, hasher := b.hasher }

/-- Method `BloomFilterBuilder::build_with_n_flags`: transfer the bit array, tweak and
hasher, recording the given `n_flags`. -/
def BloomFilterBuilder.build_with_n_flags (b : BloomFilterBuilder) (n_flags : Nat) :
    BloomFilter :=
  { filter_bits := b.filter_bits, n_tweak := b.n_tweak, n_flags := n_flags, hasher := b.hasher }

/-- Method `BloomFilter::probably_contains` (src/filter.rs lines 59-68): true iff
every hashed index refers to a set bit, an out-of-range `get` contributing
`unwrap_or_default() = false`. -/
def BloomFilter.probably_contains (f : BloomFilter) (item : List Nat) : Bool :=
  (f.hasher.hash_indexes item).all fun i => f.filter_bits.getD i false


/-! ### Basic facts about bit lookup and bit setting -/

theorem getD_true_iff (bits : List Bool) (i : Nat) :
    bits.getD i false = true ↔ ∃ h : i < bits.length, bits.get ⟨i, h⟩ = true := by
  rw [List.getD_eq_getElem?_getD]
  constructor
  · intro h
    have hlen : i < bits.length := by
      by_contra hn
      rw [List.getElem?_eq_none (le_of_not_lt hn)] at h
      simp at h
    refine ⟨hlen, ?_⟩
    rw [List.getElem?_eq_getElem hlen] at h
    simpa [List.get_eq_getElem] using h
  · rintro ⟨h, hget⟩
    rw [List.getElem?_eq_getElem h]
    simpa [List.get_eq_getElem] using hget

theorem getD_true_lt {bits : List Bool} {i : Nat} (h : bits.getD i false = true) :
    i < bits.length :=
  ((getD_true_iff bits i).mp h).1

theorem getD_set_true_of_true {bits : List Bool} {j : Nat} (i : Nat)
    (hj : bits.getD j false = true) : (bits.set i true).getD j false = true := by
  rw [List.getD_eq_getElem?_getD] at hj ⊢
  rw [List.getElem?_set]
  split
  · next hij =>
    subst hij
    have : i < bits.length := by
      by_contra hn
      rw [List.getElem?_eq_none (le_of_not_lt hn)] at hj
      simp at hj
    simp [this]
  · exact hj

theorem set_true_of_getD_true {bits : List Bool} {i : Nat}
    (h : bits.getD i false = true) : bits.set i true = bits := by
  have hi : i < bits.length := getD_true_lt h
  apply List.ext_getElem?
  intro j
  rw [List.getElem?_set]
  split
  · next hij =>
    subst hij
    rw [List.getD_eq_getElem?_getD, List.getElem?_eq_getElem hi] at h
    rw [List.getElem?_eq_getElem hi]
    simpa using h.symm
  · rfl

theorem setBitChecked_eq_some {bits bits2 : List Bool} {i : Nat} :
    setBitChecked bits i = some bits2 ↔ i < bits.length ∧ bits2 = bits.set i true := by
  unfold setBitChecked
  split
  · next h => simp [h, eq_comm]
  · next h => simp [h]

/-! ### The fold of `setBitChecked` over a list of indexes -/

theorem foldlM_setBit_cons (i : Nat) (ixs : List Nat) (bits : List Bool) :
    (i :: ixs).foldlM setBitChecked bits =
      (setBitChecked bits i).bind fun bits1 => ixs.foldlM setBitChecked bits1 := by
  rw [List.foldlM_cons]
  cases setBitChecked bits i <;> rfl

theorem foldlM_setBit_length :
    ∀ (ixs : List Nat) (bits bits2 : List Bool),
      ixs.foldlM setBitChecked bits = some bits2 → bits2.length = bits.length := by
  intro ixs
  induction ixs with
  | nil => intro bits bits2 h; simp only [List.foldlM_nil] at h; cases h; rfl
  | cons i rest ih =>
    intro bits bits2 h
    rw [foldlM_setBit_cons] at h
    cases hsb : setBitChecked bits i with
    | none => rw [hsb] at h; simp at h
    | some bits1 =>
      rw [hsb] at h
      obtain ⟨hi, rfl⟩ := setBitChecked_eq_some.mp hsb
      have := ih _ _ h
      simpa [List.length_set] using this

theorem foldlM_setBit_mono :
    ∀ (ixs : List Nat) (bits bits2 : List Bool),
      ixs.foldlM setBitChecked bits = some bits2 →
      ∀ j, bits.getD j false = true → bits2.getD j false = true := by
  intro ixs
  induction ixs with
  | nil => intro bits bits2 h j hj; simp only [List.foldlM_nil] at h; cases h; exact hj
  | cons i rest ih =>
    intro bits bits2 h j hj
    rw [foldlM_setBit_cons] at h
    cases hsb : setBitChecked bits i with
    | none => rw [hsb] at h; simp at h
    | some bits1 =>
      rw [hsb] at h
      obtain ⟨hi, rfl⟩ := setBitChecked_eq_some.mp hsb
      exact ih _ _ h j (getD_set_true_of_true i hj)

theorem foldlM_setBit_sets :
    ∀ (ixs : List Nat) (bits bits2 : List Bool),
      ixs.foldlM setBitChecked bits = some bits2 →
      ∀ i ∈ ixs, bits2.getD i false = true := by
  intro ixs
  induction ixs with
  | nil => intro bits bits2 _ i hi; cases hi
  | cons i0 rest ih =>
    intro bits bits2 h i hi
    rw [foldlM_setBit_cons] at h
    cases hsb : setBitChecked bits i0 with
    | none => rw [hsb] at h; simp at h
    | some bits1 =>
      rw [hsb] at h
      obtain ⟨hlt, rfl⟩ := setBitChecked_eq_some.mp hsb
      rcases List.mem_cons.mp hi with rfl | hrest
      · refine foldlM_setBit_mono _ _ _ h i ?_
        rw [List.getD_eq_getElem?_getD, List.getElem?_set]
        simp [hlt]
      · exact ih _ _ h i hrest

theorem foldlM_setBit_isSome :
    ∀ (ixs : List Nat) (bits : List Bool), (∀ i ∈ ixs, i < bits.length) →
      ∃ bits2, ixs.foldlM setBitChecked bits = some bits2 := by
  intro ixs
  induction ixs with
  | nil => intro bits _; exact ⟨bits, rfl⟩
  | cons i rest ih =>
    intro bits hb
    have hi : i < bits.length := hb i (List.mem_cons_self i rest)
    have hsb : setBitChecked bits i = some (bits.set i true) :=
      setBitChecked_eq_some.mpr ⟨hi, rfl⟩
    obtain ⟨bits2, h2⟩ := ih (bits.set i true) (by
      intro j hj
      rw [List.length_set]
      exact hb j (List.mem_cons_of_mem i hj))
    exact ⟨bits2, by rw [foldlM_setBit_cons, hsb]; exact h2⟩

theorem foldlM_setBit_fixed :
    ∀ (ixs : List Nat) (bits : List Bool), (∀ i ∈ ixs, bits.getD i false = true) →
      ixs.foldlM setBitChecked bits = some bits := by
  intro ixs
  induction ixs with
  | nil => intro bits _; rfl
  | cons i rest ih =>
    intro bits hb
    have hi : bits.getD i false = true := hb i (List.mem_cons_self i rest)
    have hsb : setBitChecked bits i = some bits := by
      rw [setBitChecked_eq_some]
      exact ⟨getD_true_lt hi, (set_true_of_getD_true hi).symm⟩
    rw [foldlM_setBit_cons, hsb]
    exact ih bits fun j hj => hb j (List.mem_cons_of_mem i hj)

/-! ### Facts about `add_element` and chains of insertions -/

theorem add_element_eq_some {b b2 : BloomFilterBuilder} {e : List Nat} :
    b.add_element e = some b2 ↔
      ∃ bits2, (b.hasher.hash_indexes e).foldlM setBitChecked b.filter_bits = some bits2 ∧
        b2 = { b with filter_bits := bits2 } := by
  unfold BloomFilterBuilder.add_element
  rw [Option.map_eq_some']
  constructor
  · rintro ⟨bits2, hfold, rfl⟩
    exact ⟨bits2, hfold, rfl⟩
  · rintro ⟨bits2, hfold, rfl⟩
    exact ⟨bits2, hfold, rfl⟩

theorem add_element_frame {b b2 : BloomFilterBuilder} {e : List Nat}
    (h : b.add_element e = some b2) :
    b2.hasher = b.hasher ∧ b2.n_tweak = b.n_tweak ∧
      b2.filter_bits.length = b.filter_bits.length := by
  obtain ⟨bits2, hfold, rfl⟩ := add_element_eq_some.mp h
  exact ⟨rfl, rfl, foldlM_setBit_length _ _ _ hfold⟩

theorem add_element_mono {b b2 : BloomFilterBuilder} {e : List Nat}
    (h : b.add_element e = some b2) :
    ∀ j, b.filter_bits.getD j false = true → b2.filter_bits.getD j false = true := by
  obtain ⟨bits2, hfold, rfl⟩ := add_element_eq_some.mp h
  exact foldlM_setBit_mono _ _ _ hfold

theorem add_element_sets {b b2 : BloomFilterBuilder} {e : List Nat}
    (h : b.add_element e = some b2) :
    ∀ i ∈ b.hasher.hash_indexes e, b2.filter_bits.getD i false = true := by
  obtain ⟨bits2, hfold, rfl⟩ := add_element_eq_some.mp h
  exact foldlM_setBit_sets _ _ _ hfold

theorem add_element_isSome {b : BloomFilterBuilder} {e : List Nat}
    (h : ∀ i ∈ b.hasher.hash_indexes e, i < b.filter_bits.length) :
    ∃ b2, b.add_element e = some b2 := by
  obtain ⟨bits2, hfold⟩ := foldlM_setBit_isSome _ _ h
  exact ⟨{ b with filter_bits := bits2 }, add_element_eq_some.mpr ⟨bits2, hfold, rfl⟩⟩

theorem addAll_nil (b : BloomFilterBuilder) : b.addAll [] = some b := rfl

theorem addAll_cons (b : BloomFilterBuilder) (e : List Nat) (es : List (List Nat)) :
    b.addAll (e :: es) = (b.add_element e).bind fun b1 => b1.addAll es := by
  unfold BloomFilterBuilder.addAll
  rw [List.foldlM_cons]
  cases b.add_element e <;> rfl

theorem addAll_frame :
    ∀ (es : List (List Nat)) (b b2 : BloomFilterBuilder), b.addAll es = some b2 →
      b2.hasher = b.hasher ∧ b2.n_tweak = b.n_tweak ∧
        b2.filter_bits.length = b.filter_bits.length := by
  intro es
  induction es with
  | nil => intro b b2 h; rw [addAll_nil] at h; cases h; exact ⟨rfl, rfl, rfl⟩
  | cons e rest ih =>
    intro b b2 h
    rw [addAll_cons] at h
    cases hadd : b.add_element e with
    | none => rw [hadd] at h; simp at h
    | some b1 =>
      rw [hadd] at h
      obtain ⟨hh, ht, hl⟩ := add_element_frame hadd
      obtain ⟨hh2, ht2, hl2⟩ := ih b1 b2 h
      exact ⟨hh2.trans hh, ht2.trans ht, hl2.trans hl⟩

theorem addAll_mono :
    ∀ (es : List (List Nat)) (b b2 : BloomFilterBuilder), b.addAll es = some b2 →
      ∀ j, b.filter_bits.getD j false = true → b2.filter_bits.getD j false = true := by
  intro es
  induction es with
  | nil => intro b b2 h j hj; rw [addAll_nil] at h; cases h; exact hj
  | cons e rest ih =>
    intro b b2 h j hj
    rw [addAll_cons] at h
    cases hadd : b.add_element e with
    | none => rw [hadd] at h; simp at h
    | some b1 =>
      rw [hadd] at h
      exact ih b1 b2 h j (add_element_mono hadd j hj)

theorem addAll_sets :
    ∀ (es : List (List Nat)) (b b2 : BloomFilterBuilder), b.addAll es = some b2 →
      ∀ e ∈ es, ∀ i ∈ b.hasher.hash_indexes e, b2.filter_bits.getD i false = true := by
  intro es
  induction es with
  | nil => intro b b2 _ e he; cases he
  | cons e0 rest ih =>
    intro b b2 h e he i hi
    rw [addAll_cons] at h
    cases hadd : b.add_element e0 with
    | none => rw [hadd] at h; simp at h
    | some b1 =>
      rw [hadd] at h
      rcases List.mem_cons.mp he with rfl | hrest
      · exact addAll_mono rest b1 b2 h i (add_element_sets hadd i hi)
      · have hh : b1.hasher = b.hasher := (add_element_frame hadd).1
        exact ih b1 b2 h e hrest i (by rw [hh]; exact hi)

/-! ### Bounds on hash indexes and the builder construction invariant -/

theorem hash_indexes_lt {h : Hasher} (hwf : h.filter_bits_len = 0 → h.hash_seeds = [])
    (item : List Nat) : ∀ i ∈ h.hash_indexes item, i < h.filter_bits_len := by
  intro i hi
  unfold Hasher.hash_indexes at hi
  rcases Nat.eq_zero_or_pos h.filter_bits_len with hz | hpos
  · rw [hwf hz] at hi
    cases hi
  · obtain ⟨seed, _, rfl⟩ := List.mem_map.mp hi
    exact Nat.mod_lt _ hpos

theorem new_n_tweak_filter_bits (size n_hashes n_tweak : Nat) :
    (BloomFilterBuilder.new_n_tweak size n_hashes n_tweak).filter_bits =
      List.replicate (size * 8) false := rfl

theorem new_n_tweak_seeds (size n_hashes n_tweak : Nat) :
    (BloomFilterBuilder.new_n_tweak size n_hashes n_tweak).hasher.hash_seeds =
      (List.range n_hashes).map fun i => (i * 0xFBA4C795 % U32 + n_tweak) % U32 := rfl

theorem new_n_tweak_len (size n_hashes n_tweak : Nat) :
    (BloomFilterBuilder.new_n_tweak size n_hashes n_tweak).hasher.filter_bits_len =
      size * 8 := by
  show (List.replicate (size * 8) false).length = size * 8
  rw [List.length_replicate]

theorem new_n_tweak_wf {size n_hashes : Nat} (n_tweak : Nat) (hwf : size = 0 → n_hashes = 0) :
    (BloomFilterBuilder.new_n_tweak size n_hashes n_tweak).hasher.filter_bits_len = 0 →
      (BloomFilterBuilder.new_n_tweak size n_hashes n_tweak).hasher.hash_seeds = [] := by
  intro hz
  rw [new_n_tweak_len] at hz
  have hs : size = 0 := by omega
  rw [new_n_tweak_seeds, hwf hs]
  rfl

/-! ### Facts about the real-valued parameter derivation -/

theorem log2_pos : (0:ℝ) < Real.log 2 := Real.log_pos (by norm_num)

theorem log2_ne : Real.log 2 ≠ 0 := ne_of_gt log2_pos

theorem log_half : Real.log ((1:ℝ)/2) = -Real.log 2 := by
  rw [one_div, Real.log_inv]

theorem size_arg_one_half :
    -1 / Real.log 2 ^ 2 * ((1:ℕ):ℝ) * Real.log ((1:ℝ)/2) = 1 / Real.log 2 := by
  rw [log_half]
  push_cast
  field_simp
  ring

theorem inv_log2_lt_two : 1 / Real.log 2 < 2 := by
  rw [div_lt_iff₀ log2_pos]
  nlinarith [Real.log_two_gt_d9]

theorem one_le_inv_log2 : (1:ℝ) ≤ 1 / Real.log 2 := by
  rw [le_div_iff₀ log2_pos]
  nlinarith [Real.log_two_lt_d9]

theorem floor_inv_log2 : ⌊(1:ℝ) / Real.log 2⌋ = 1 := by
  rw [Int.floor_eq_iff]
  constructor
  · exact_mod_cast one_le_inv_log2
  · have := inv_log2_lt_two
    push_cast
    linarith

theorem fs_one_half : BloomFilterBuilder.filter_size 1 ((1:ℝ)/2) = some 0 := by
  simp only [BloomFilterBuilder.filter_size, rustCastU64, size_arg_one_half, floor_inv_log2]
  norm_num

theorem ceil_one_half : filterSizeSpecCeil 1 ((1:ℝ)/2) = 1 := by
  unfold filterSizeSpecCeil
  rw [size_arg_one_half, Nat.ceil_eq_iff one_ne_zero]
  constructor
  · push_cast
    exact div_pos (div_pos one_pos log2_pos) (by norm_num)
  · have := inv_log2_lt_two
    have h8 : (0:ℝ) < 8 := by norm_num
    rw [div_le_iff₀ h8]
    push_cast
    linarith

theorem size_arg_one_two_neg :
    -1 / Real.log 2 ^ 2 * ((1:ℕ):ℝ) * Real.log 2 < 0 := by
  have h1 : -1 / Real.log 2 ^ 2 < 0 :=
    div_neg_of_neg_of_pos (by norm_num) (pow_pos log2_pos 2)
  push_cast
  nlinarith [log2_pos]

theorem fs_one_two : BloomFilterBuilder.filter_size 1 (2:ℝ) = some 0 := by
  have hfl : ⌊-1 / Real.log 2 ^ 2 * ((1:ℕ):ℝ) * Real.log 2⌋ ≤ 0 :=
    Int.floor_nonpos size_arg_one_two_neg.le
  simp only [BloomFilterBuilder.filter_size, rustCastU64]
  rw [max_eq_right hfl]
  norm_num

theorem hash_fns_number_zero (n_elements : Nat) :
    BloomFilterBuilder.hash_fns_number n_elements 0 = 0 := by
  unfold BloomFilterBuilder.hash_fns_number
  norm_num

theorem fs_zero (p : ℝ) : BloomFilterBuilder.filter_size 0 p = some 0 := by
  simp only [BloomFilterBuilder.filter_size, rustCastU64]
  norm_num

theorem filter_size_eq (n : Nat) (p : ℝ) :
    BloomFilterBuilder.filter_size n p =
      if rustCastU64 (-1 / Real.log 2 ^ 2 * n * Real.log p) / 8 < 36000
      then some (rustCastU64 (-1 / Real.log 2 ^ 2 * n * Real.log p) / 8)
      else none := rfl

theorem addAll_isSome :
    ∀ (es : List (List Nat)) (b : BloomFilterBuilder),
      b.hasher.filter_bits_len = b.filter_bits.length →
      (b.hasher.filter_bits_len = 0 → b.hasher.hash_seeds = []) →
      ∃ b2, b.addAll es = some b2 := by
  intro es
  induction es with
  | nil => intro b _ _; exact ⟨b, addAll_nil b⟩
  | cons e rest ih =>
    intro b hlen hwf
    have hbound : ∀ i ∈ b.hasher.hash_indexes e, i < b.filter_bits.length := by
      intro i hi
      rw [← hlen]
      exact hash_indexes_lt hwf e i hi
    obtain ⟨b1, h1⟩ := add_element_isSome hbound
    obtain ⟨hh, _, hl⟩ := add_element_frame h1
    obtain ⟨b2, h2⟩ := ih b1 (by rw [hh, hl]; exact hlen) (by rw [hh]; exact hwf)
    exact ⟨b2, by rw [addAll_cons, h1]; exact h2⟩

/-! ### The claims -/

/-- C1.  No false negatives: for every filter built by `new_n_tweak` (with the
derived byte size and hash count as inputs), any chain of `add_element` calls
that completes, and finalization by `build` or `build_with_n_flags`,
`probably_contains` returns true on every element that was added. -/
theorem claim1_no_false_negatives (size n_hashes n_tweak : Nat) (elems : List (List Nat))
    (b2 : BloomFilterBuilder) (e : List Nat)
    (hadd : (BloomFilterBuilder.new_n_tweak size n_hashes n_tweak).addAll elems = some b2)
    (he : e ∈ elems) :
    b2.build.probably_contains e = true ∧
      ∀ n_flags, (b2.build_with_n_flags n_flags).probably_contains e = true := by
  have hsets := addAll_sets elems _ b2 hadd e he
  have hhasher := (addAll_frame elems _ b2 hadd).1
  have hall : ∀ i ∈ b2.hasher.hash_indexes e, b2.filter_bits.getD i false = true := by
    intro i hi
    apply hsets
    rw [hhasher] at hi
    exact hi
  have key : ((b2.hasher.hash_indexes e).all fun i => b2.filter_bits.getD i false) = true :=
    List.all_eq_true.mpr hall
  exact ⟨key, fun _ => key⟩

/-- Closed witness for C1: the end-to-end scenario with a 1-byte filter, two
hash functions, tweak 0, elements `[1]` and `[2]`. -/
theorem claim1_witness :
    (BloomFilterBuilder.new_n_tweak 1 2 0).addAll [[1], [2]] =
        some ⟨0, [false, false, true, true, false, false, false, true], ⟨8, [0, 4221880213]⟩⟩ ∧
      (⟨0, [false, false, true, true, false, false, false, true], ⟨8, [0, 4221880213]⟩⟩ :
          BloomFilterBuilder).build.probably_contains [1] = true :=
  ⟨by decide, (claim1_no_false_negatives 1 2 0 [[1], [2]] _ [1] (by decide) (by decide)).1⟩

/-- C4.  Index bound: for every builder reachable from `new_n_tweak` (the
derived hash count being 0 whenever the derived size is 0, as
`hash_fns_number` guarantees — see `hash_fns_number_zero`) and any sequence of
completed `add_element` calls, every index produced by `hash_indexes` on any
input is strictly below the bit-array length, for the builder as well as for
the finalized filters. -/
theorem claim4_index_bound (size n_hashes n_tweak : Nat) (elems : List (List Nat))
    (b2 : BloomFilterBuilder) (item : List Nat) (i : Nat)
    (hwf : size = 0 → n_hashes = 0)
    (hadd : (BloomFilterBuilder.new_n_tweak size n_hashes n_tweak).addAll elems = some b2)
    (hi : i ∈ b2.hasher.hash_indexes item) :
    i < b2.filter_bits.length ∧ i < b2.build.filter_bits.length ∧
      ∀ n_flags, i < (b2.build_with_n_flags n_flags).filter_bits.length := by
  have hhasher := (addAll_frame elems _ b2 hadd).1
  have hlen := (addAll_frame elems _ b2 hadd).2.2
  rw [hhasher] at hi
  have hb := hash_indexes_lt (new_n_tweak_wf n_tweak hwf) item i hi
  rw [new_n_tweak_len] at hb
  have hmain : i < b2.filter_bits.length := by
    rw [hlen, new_n_tweak_filter_bits, List.length_replicate]
    exact hb
  exact ⟨hmain, hmain, fun _ => hmain⟩

/-- Closed witness for C4: a fresh 1-byte, 2-hash builder and the item `[1]`,
whose first hash index is 3. -/
theorem claim4_witness :
    3 ∈ (BloomFilterBuilder.new_n_tweak 1 2 0).hasher.hash_indexes [1] ∧
      3 < (BloomFilterBuilder.new_n_tweak 1 2 0).filter_bits.length :=
  ⟨by decide, (claim4_index_bound 1 2 0 [] _ [1] 3 (by omega) rfl (by decide)).1⟩

/-- C5.  Seed generation: the i-th hash seed of a builder equals
`((i * 0xFBA4C795) mod 2^32 + n_tweak) mod 2^32`, all arithmetic wrapping on
32 bits (release-mode semantics of `overflowing_mul` and `+`). -/
theorem claim5_seed_formula (size n_hashes n_tweak i : Nat) (h : i < n_hashes) :
    (BloomFilterBuilder.new_n_tweak size n_hashes n_tweak).hasher.hash_seeds[i]? =
      some ((i * 0xFBA4C795 % 2 ^ 32 + n_tweak) % 2 ^ 32) := by
  rw [new_n_tweak_seeds, List.getElem?_map, List.getElem?_range h]
  show some _ = some _
  norm_num [U32]

/-- Closed witness for C5: seed number 1 of a 3-hash builder with tweak 7. -/
theorem claim5_witness :
    (1:Nat) < 3 ∧
      (BloomFilterBuilder.new_n_tweak 1 3 7).hasher.hash_seeds[1]? =
        some ((1 * 0xFBA4C795 % 2 ^ 32 + 7) % 2 ^ 32) :=
  ⟨by decide, claim5_seed_formula 1 3 7 1 (by decide)⟩

/-- C6.  `probably_contains` returns true iff every index produced by
`hash_indexes` refers to an in-range bit that is set; an out-of-range lookup
contributes false (the `unwrap_or_default`) instead of failing, and the query
is a total function. -/
theorem claim6_membership_iff (f : BloomFilter) (item : List Nat) :
    f.probably_contains item = true ↔
      ∀ i ∈ f.hasher.hash_indexes item,
        ∃ h : i < f.filter_bits.length, f.filter_bits.get ⟨i, h⟩ = true := by
  unfold BloomFilter.probably_contains
  rw [List.all_eq_true]
  constructor
  · intro h i hi
    exact (getD_true_iff _ _).mp (h i hi)
  · intro h i hi
    exact (getD_true_iff _ _).mpr (h i hi)

/-- Closed witness for C6: the equivalence instantiated at a concrete filter
and item. -/
theorem claim6_witness :
    ((BloomFilterBuilder.new_n_tweak 1 2 0).build.probably_contains [0] = true ↔
      ∀ i ∈ (BloomFilterBuilder.new_n_tweak 1 2 0).build.hasher.hash_indexes [0],
        ∃ h : i < (BloomFilterBuilder.new_n_tweak 1 2 0).build.filter_bits.length,
          (BloomFilterBuilder.new_n_tweak 1 2 0).build.filter_bits.get ⟨i, h⟩ = true) :=
  claim6_membership_iff _ [0]

/-- C7.  Idempotent insertion: adding the same element twice yields the very
same builder (in particular the same bit array) as adding it once; if the
first insertion panics, so does the chain. -/
theorem claim7_idempotent (b : BloomFilterBuilder) (e : List Nat) :
    (b.add_element e).bind (fun b2 => b2.add_element e) = b.add_element e := by
  cases hadd : b.add_element e with
  | none => rfl
  | some b2 =>
    show b2.add_element e = some b2
    have hhasher := (add_element_frame hadd).1
    have hsets := add_element_sets hadd
    apply add_element_eq_some.mpr
    refine ⟨b2.filter_bits, ?_, rfl⟩
    apply foldlM_setBit_fixed
    intro i hi
    apply hsets
    rw [hhasher] at hi
    exact hi

/-- C8.  Frame conditions of finalization and insertion: `build` and
`build_with_n_flags` transfer the bit array, the hasher and `n_tweak`
unchanged and record `n_flags` as given (0 for `build`); a completed
`add_element` changes only the bit array. -/
theorem claim8_build_frame (b : BloomFilterBuilder) (n_flags : Nat) (e : List Nat)
    (b2 : BloomFilterBuilder) :
    b.build.filter_bits = b.filter_bits ∧ b.build.hasher = b.hasher ∧
      b.build.n_tweak = b.n_tweak ∧ b.build.n_flags = 0 ∧
      (b.build_with_n_flags n_flags).filter_bits = b.filter_bits ∧
      (b.build_with_n_flags n_flags).hasher = b.hasher ∧
      (b.build_with_n_flags n_flags).n_tweak = b.n_tweak ∧
      (b.build_with_n_flags n_flags).n_flags = n_flags ∧
      (b.add_element e = some b2 → b2.n_tweak = b.n_tweak ∧ b2.hasher = b.hasher) :=
  ⟨rfl, rfl, rfl, rfl, rfl, rfl, rfl, rfl,
    fun h => ⟨(add_element_frame h).2.1, (add_element_frame h).1⟩⟩

/-- Closed witness for C8: a concrete insertion into a 1-byte builder leaves
tweak and hasher unchanged. -/
theorem claim8_witness :
    (BloomFilterBuilder.new_n_tweak 1 2 0).add_element [1] =
        some ⟨0, [false, false, false, true, false, false, false, false], ⟨8, [0, 4221880213]⟩⟩ ∧
      (⟨0, [false, false, false, true, false, false, false, false], ⟨8, [0, 4221880213]⟩⟩ :
          BloomFilterBuilder).n_tweak = (BloomFilterBuilder.new_n_tweak 1 2 0).n_tweak :=
  ⟨by decide,
    ((claim8_build_frame (BloomFilterBuilder.new_n_tweak 1 2 0) 0 [1] _).2.2.2.2.2.2.2.2
      (by decide)).1⟩

/-- C9.  The invariant `filter_bits_len = filter_bits.length` holds for every
builder made by `new_n_tweak` and is preserved by every `add_element`, so the
panic branch of the `expect` in `add_element` is unreachable (every chain of
insertions completes, and any further insertion completes as well).  The
hypothesis `size = 0 → n_hashes = 0` is what `hash_fns_number` establishes
(see `hash_fns_number_zero`). -/
theorem claim9_add_element_total (size n_hashes n_tweak : Nat) (elems : List (List Nat))
    (hwf : size = 0 → n_hashes = 0) :
    ∃ b2, (BloomFilterBuilder.new_n_tweak size n_hashes n_tweak).addAll elems = some b2 ∧
      b2.hasher.filter_bits_len = b2.filter_bits.length ∧
      ∀ e, ∃ b3, b2.add_element e = some b3 := by
  obtain ⟨b2, h2⟩ := addAll_isSome elems _ rfl (new_n_tweak_wf n_tweak hwf)
  obtain ⟨hh, _, hl⟩ := addAll_frame elems _ b2 h2
  have hlen2 : b2.hasher.filter_bits_len = b2.filter_bits.length := by
    rw [hh, hl]
    rfl
  refine ⟨b2, h2, hlen2, fun e => ?_⟩
  apply add_element_isSome
  intro i hi
  rw [← hlen2]
  refine hash_indexes_lt ?_ e i hi
  rw [hh]
  exact new_n_tweak_wf n_tweak hwf

/-- Closed witness for C9: the 1-byte, 2-hash builder with one insertion. -/
theorem claim9_witness :
    ∃ b2, (BloomFilterBuilder.new_n_tweak 1 2 0).addAll [[1]] = some b2 ∧
      b2.hasher.filter_bits_len = b2.filter_bits.length ∧
      ∀ e, ∃ b3, b2.add_element e = some b3 :=
  claim9_add_element_total 1 2 0 [[1]] (by omega)

/-- C10.  Zero-size filters are safe: `filter_size` can succeed with size 0
(for instance `n_elements = 0`), `hash_fns_number` then derives 0 hash
functions, so the seed list is empty, `hash_indexes` is always empty (the
modulo-by-zero closure is never evaluated), `add_element` is a no-op that
cannot panic, and `probably_contains` is constantly true on both
finalizations. -/
theorem claim10_zero_size (n_elements n_tweak : Nat) :
    BloomFilterBuilder.hash_fns_number n_elements 0 = 0 ∧
      (∀ p : ℝ, BloomFilterBuilder.filter_size 0 p = some 0) ∧
      (BloomFilterBuilder.new_n_tweak 0 (BloomFilterBuilder.hash_fns_number n_elements 0)
          n_tweak).hasher.hash_seeds = [] ∧
      (∀ item, (BloomFilterBuilder.new_n_tweak 0
          (BloomFilterBuilder.hash_fns_number n_elements 0)
          n_tweak).hasher.hash_indexes item = []) ∧
      (∀ e, (BloomFilterBuilder.new_n_tweak 0
          (BloomFilterBuilder.hash_fns_number n_elements 0) n_tweak).add_element e =
        some (BloomFilterBuilder.new_n_tweak 0
          (BloomFilterBuilder.hash_fns_number n_elements 0) n_tweak)) ∧
      (∀ item, (BloomFilterBuilder.new_n_tweak 0
          (BloomFilterBuilder.hash_fns_number n_elements 0)
          n_tweak).build.probably_contains item = true) ∧
      ∀ item n_flags, ((BloomFilterBuilder.new_n_tweak 0
          (BloomFilterBuilder.hash_fns_number n_elements 0)
          n_tweak).build_with_n_flags n_flags).probably_contains item = true := by
  rw [hash_fns_number_zero]
  exact ⟨rfl, fs_zero, rfl, fun item => rfl, fun e => rfl, fun item => rfl,
    fun item n_flags => rfl⟩

/-- Closed witness for C10: a concrete no-op insertion into the zero-size
builder with expected element count 3 and tweak 5. -/
theorem claim10_witness :
    (BloomFilterBuilder.new_n_tweak 0 (BloomFilterBuilder.hash_fns_number 3 0)
        5).add_element [1] =
      some (BloomFilterBuilder.new_n_tweak 0 (BloomFilterBuilder.hash_fns_number 3 0) 5) :=
  (claim10_zero_size 3 5).2.2.2.2.1 [1]

/-- Counterexample to C2 as stated: at `n_elements = 1`,
`false_positives_rate = 2`, the intermediate result of the size formula is
strictly negative, yet `filter_size` returns `Ok(0)` rather than
`Err(BadFilterParameters)` — the `as u64` cast saturates negatives to 0. -/
theorem claim2_counterexample :
    -1 / Real.log 2 ^ 2 * ((1:ℕ):ℝ) * Real.log 2 < 0 ∧
      BloomFilterBuilder.filter_size 1 (2:ℝ) = some 0 ∧
      BloomFilterBuilder.filter_size 1 (2:ℝ) ≠ none :=
  ⟨size_arg_one_two_neg, fs_one_two, by rw [fs_one_two]; exact Option.some_ne_none 0⟩

/-- C2 (amended).  `filter_size` returns `Err(BadFilterParameters)` exactly
when the truncated-and-saturated byte size (`as u64`, then division by 8) is
at least 36000; any success is a size strictly below 36000; and a nonpositive
intermediate result saturates to 0 and yields `Ok(0)` rather than an error. -/
theorem claim2_amended (n : Nat) (p : ℝ) :
    (BloomFilterBuilder.filter_size n p = none ↔
      36000 ≤ rustCastU64 (-1 / Real.log 2 ^ 2 * n * Real.log p) / 8) ∧
    (∀ s, BloomFilterBuilder.filter_size n p = some s → s < 36000) ∧
    (-1 / Real.log 2 ^ 2 * n * Real.log p ≤ 0 →
      BloomFilterBuilder.filter_size n p = some 0) := by
  refine ⟨?_, ?_, ?_⟩
  · rw [filter_size_eq]
    split_ifs with h
    · exact iff_of_false (by simp) (by omega)
    · exact iff_of_true rfl (by omega)
  · intro s hs
    rw [filter_size_eq] at hs
    split_ifs at hs with h
    injection hs with hs2
    omega
  · intro hx
    have hfl : ⌊-1 / Real.log 2 ^ 2 * (n:ℝ) * Real.log p⌋ ≤ 0 := Int.floor_nonpos hx
    rw [filter_size_eq]
    unfold rustCastU64
    rw [max_eq_right hfl, min_eq_left (by norm_num : (0:ℤ) ≤ 2 ^ 64 - 1)]
    norm_num

/-- Closed witness for the amended C2: the nonpositive-intermediate clause at
the concrete input `(1, 2)`. -/
theorem claim2_witness : BloomFilterBuilder.filter_size 1 (2:ℝ) = some 0 :=
  (claim2_amended 1 2).2.2 size_arg_one_two_neg.le

/-- Counterexample to C3 as stated: at `n_elements = 1`,
`false_positives_rate = 1/2`, the formula value is `1/ln 2 ≈ 1.44`, the code
returns `Ok(0)` (truncate to 1, then integer division by 8), while the
spec formula `ceil(value / 8)` gives 1. -/
theorem claim3_counterexample :
    BloomFilterBuilder.filter_size 1 ((1:ℝ)/2) = some 0 ∧
      filterSizeSpecCeil 1 ((1:ℝ)/2) = 1 ∧
      BloomFilterBuilder.filter_size 1 ((1:ℝ)/2) ≠
        some (filterSizeSpecCeil 1 ((1:ℝ)/2)) := by
  refine ⟨fs_one_half, ceil_one_half, ?_⟩
  rw [fs_one_half, ceil_one_half]
  simp

/-- C3 (amended).  For `fp_rate` in `(0,1)`, whenever `filter_size` succeeds
the returned byte length is the FLOOR of the optimal-size formula divided
by 8 (truncation toward zero of the real value, then integer division by 8),
not the ceiling claimed by the spec. -/
theorem claim3_amended (n : Nat) (p : ℝ) (s : Nat) (hp0 : 0 < p) (hp1 : p < 1)
    (hs : BloomFilterBuilder.filter_size n p = some s) :
    s = ⌊-1 / Real.log 2 ^ 2 * n * Real.log p / 8⌋₊ := by
  have hlog : Real.log p < 0 := Real.log_neg hp0 hp1
  have hx : 0 ≤ -1 / Real.log 2 ^ 2 * n * Real.log p := by
    have h1 : -1 / Real.log 2 ^ 2 ≤ 0 :=
      le_of_lt (div_neg_of_neg_of_pos (by norm_num) (pow_pos log2_pos 2))
    have h2 : -1 / Real.log 2 ^ 2 * (n:ℝ) ≤ 0 :=
      mul_nonpos_of_nonpos_of_nonneg h1 (Nat.cast_nonneg n)
    nlinarith [h2, hlog]
  rw [filter_size_eq] at hs
  split_ifs at hs with hlt
  · injection hs with hs2
    subst hs2
    unfold rustCastU64
    rw [max_eq_left (Int.floor_nonneg.mpr hx)]
    rcases le_or_lt ⌊-1 / Real.log 2 ^ 2 * (n:ℝ) * Real.log p⌋ (2 ^ 64 - 1) with hle | hgt
    · rw [min_eq_left hle, Int.floor_toNat, ← Nat.floor_div_nat]
      norm_num
    · exfalso
      unfold rustCastU64 at hlt
      rw [max_eq_left (Int.floor_nonneg.mpr hx), min_eq_right hgt.le] at hlt
      omega

/-- Closed witness for the amended C3: at `(1, 1/2)` the returned size 0 is
the floored formula value. -/
theorem claim3_witness :
    (0:ℝ) < 1/2 ∧ ((1:ℝ)/2) < 1 ∧
      (0:Nat) = ⌊-1 / Real.log 2 ^ 2 * ((1:ℕ):ℝ) * Real.log ((1:ℝ)/2) / 8⌋₊ :=
  ⟨by norm_num, by norm_num,
    claim3_amended 1 ((1:ℝ)/2) 0 (by norm_num) (by norm_num) fs_one_half⟩

end Bip37
